import Mathlib

/-!
Shallow embedding of the Perplex token-level prediction analysis core
(`src/llamacpp.rs` and `src/utils.rs`).

Modelling conventions:
* Rust `f32` logits and probabilities are modelled as `ℚ`.  The transcendental
  functions `exp`, `ln`, `log2` (supplied by the float library, not by this
  repository) are passed as explicit function parameters `fexp`, `fln`,
  `flog2 : ℚ → ℚ`, so every statement quantifies over their interpretation.
* Token ids (`LlamaToken`, a wrapped `i32`) are modelled as `Int`.
* The llama.cpp inference backend is an abstract `Engine` record of the
  operations the code calls (`str_to_token`, `new_context`, `decode`,
  `candidates_ith`, `token_to_str`), each fallible exactly where the Rust
  binding is fallible.
* Channel sends and decode submissions are recorded in an explicit event
  trace (`Event`), so ordering claims become statements about lists.
* Wall-clock time is not modelled; `processing_time_ms` is always 0.
-/

namespace Perplex

abbrev TokenId := Int

/-- The `AddBos` flag of `str_to_token`. -/
inductive AddBos where
  | always : AddBos
  | never : AddBos
deriving DecidableEq

/-- Rust struct `AnalyzedToken` in `utils.rs`. -/
structure AnalyzedToken where
  text : String
  display_text : String
  rank : Nat
  top_predictions : List (String × ℚ)
  probability : ℚ
deriving DecidableEq

/-- Rust `AnalyzedToken::new` in `utils.rs`, which derives `display_text` from
`text` by rewriting newlines and tabs. -/
def AnalyzedToken.new (text : String) (rank : Nat)
    (top_predictions : List (String × ℚ)) (probability : ℚ) : AnalyzedToken :=
  { text := text
    display_text := (text.replace "\n" "↵\n").replace "\t" "→"
    rank := rank
    top_predictions := top_predictions
    probability := probability }

/-- Rust struct `AnalysisResult` in `utils.rs`. -/
structure AnalysisResult where
  tokens : List AnalyzedToken
  processing_time_ms : Nat
deriving DecidableEq

/-- Rust `AnalysisResult::average_rank` in `utils.rs`. -/
def AnalysisResult.average_rank (r : AnalysisResult) : ℚ :=
  if r.tokens.length ≤ 1 then 0
  else
    let tokens_scored := r.tokens.drop 1
    ((tokens_scored.map (fun t => t.rank)).sum : ℚ) / (tokens_scored.length : ℚ)

/-- Rust `AnalysisResult::exact_prediction_percentage` in `utils.rs`. -/
def AnalysisResult.exact_prediction_percentage (r : AnalysisResult) : ℚ :=
  if r.tokens.length ≤ 1 then 0
  else
    let tokens_scored := r.tokens.drop 1
    let exact := (tokens_scored.filter (fun t => t.rank == 1)).length
    ((exact : ℚ) / (tokens_scored.length : ℚ)) * 100

/-- Rust `AnalysisResult::perplexity` in `utils.rs`:
`exp( (Σ -ln p_i) / count )` over the tokens with the first excluded.
`fln` and `fexp` interpret the float `ln` and `exp`. -/
def AnalysisResult.perplexity (fln fexp : ℚ → ℚ) (r : AnalysisResult) : ℚ :=
  if r.tokens.length ≤ 1 then 0
  else
    let tokens_scored := r.tokens.drop 1
    let sum_log_probs := (tokens_scored.map (fun t => -(fln t.probability))).sum
    fexp (sum_log_probs / (tokens_scored.length : ℚ))

/-- Rust `AnalysisResult::text_entropy` in `utils.rs`.  Note the multiplier `n`
is `self.tokens.len()`, the full sequence length. -/
def AnalysisResult.text_entropy (fln fexp flog2 : ℚ → ℚ) (r : AnalysisResult) : ℚ :=
  if r.tokens.length ≤ 1 then 0
  else
    let ppl := r.perplexity fln fexp
    let n : ℚ := (r.tokens.length : ℚ)
    n * flog2 ppl

/-- Descending-by-logit comparator: `llamacpp.rs` sorts with
`b.partial_cmp(a)`, i.e. larger logits first.  On `ℚ` the partial
comparison always succeeds. -/
def logitDesc (p q : TokenId × ℚ) : Bool := decide (q.2 ≤ p.2)

/-- The candidate list sorted descending by raw logit
(`logits.sort_unstable_by(|(_, a), (_, b)| b.partial_cmp(a) ...)`). -/
def sortDesc (logits : List (TokenId × ℚ)) : List (TokenId × ℚ) :=
  logits.mergeSort logitDesc

/-- Maximum raw logit: the Rust code folds `f32::max` starting from
`NEG_INFINITY`; for a non-empty list this is the maximum of the logits
(the `[]` case is unreachable behind the emptiness guard). -/
def maxLogit : List (TokenId × ℚ) → ℚ
  | [] => 0
  | p :: ps => ps.foldl (fun m q => max m q.2) p.2

/-- The `sum_exp` quantity: sum over all candidates of `exp(logit - max_logit)`. -/
def sumExp (fexp : ℚ → ℚ) (logits : List (TokenId × ℚ)) : ℚ :=
  (logits.map (fun p => fexp (p.2 - maxLogit logits))).sum

/-- Rust `logits.iter().position(|(id, _)| *id == target_id)` together with the
subsequent `logits[idx].1` lookup: the index of the first pair whose id is
the target, paired with that pair's logit. -/
def findTarget : List (TokenId × ℚ) → TokenId → Option (Nat × ℚ)
  | [], _ => none
  | p :: ps, tid =>
    if p.1 = tid then some (0, p.2)
    else (findTarget ps tid).map (fun iv => (iv.1 + 1, iv.2))

/-- The top-5 predictions: first 5 entries of the sorted list, each with
probability `exp(logit - max_logit) / sum_exp`. -/
def topPreds (fexp : ℚ → ℚ) (logits : List (TokenId × ℚ)) : List (TokenId × ℚ) :=
  ((sortDesc logits).take 5).map
    (fun p => (p.1, fexp (p.2 - maxLogit logits) / sumExp fexp logits))

/-- Rust `LlamaAnalyzer::calculate_token_metrics` in `llamacpp.rs`. -/
def calculate_token_metrics (fexp : ℚ → ℚ) (logits : List (TokenId × ℚ))
    (target_token : Option TokenId) : Nat × ℚ × List (TokenId × ℚ) :=
  if logits = [] then (1, 0, [])
  else
    let rank_prob : Nat × ℚ :=
      match target_token with
      | none => (1, 0)
      | some target_id =>
        match findTarget (sortDesc logits) target_id with
        | none => (1, 0)
        | some iv => (iv.1 + 1, fexp (iv.2 - maxLogit logits) / sumExp fexp logits)
    (rank_prob.1, rank_prob.2, topPreds fexp logits)

/-- Rust enum `WorkerMessage` in `utils.rs`. -/
inductive WorkerMessage where
  | modelLoaded : WorkerMessage
  | started : WorkerMessage
  | progress : Nat → Nat → WorkerMessage
  | completed : AnalysisResult → WorkerMessage
  | tokenCount : Nat → WorkerMessage
  | error : String → WorkerMessage
deriving DecidableEq

/-- Rust enum `WorkerCommand` in `utils.rs`. -/
inductive WorkerCommand where
  | analyze : String → WorkerCommand
  | tokenize : String → WorkerCommand
  | shutdown : WorkerCommand
deriving DecidableEq

/-- Observable event during `analyze`: either a message sent on the
worker channel, or a `ctx.decode(batch)` submission (recorded with the
absolute position of the chunk's first token and the chunk itself). -/
inductive Event where
  | msg : WorkerMessage → Event
  | decodeCall : Nat → List TokenId → Event
deriving DecidableEq

/-- The abstract llama.cpp backend: exactly the fallible operations
`analyze`/`count_tokens` invoke.  `fexp` interprets the float `exp` used
by the metrics calculator.  `candidates` gives the candidate
(id, logit) pairs the context reports for an absolute token position
after that position has been decoded. -/
structure Engine where
  fexp : ℚ → ℚ
  tokenize : String → AddBos → Except String (List TokenId)
  newContext : Nat → Nat → Except String Unit
  decodeChunk : Nat → List TokenId → Except String Unit
  candidates : Nat → List (TokenId × ℚ)
  tokenToStr : TokenId → Option String

/-- Fallback text for a token whose `token_to_str` fails: the raw id
formatted in square brackets. -/
def bracketed (id : TokenId) : String := "[" ++ toString id ++ "]"

/-- Auxiliary recursion for `chunksOf`, structural on a fuel argument so
that applications reduce definitionally; the fuel is the list length,
which for `n > 0` can never run out. -/
def chunksOfAux (n : Nat) : Nat → List TokenId → List (List TokenId)
  | 0, _ => []
  | _, [] => []
  | fuel + 1, x :: xs => (x :: xs).take n :: chunksOfAux n fuel ((x :: xs).drop n)

/-- Rust `tokens.chunks(n)`: contiguous chunks of at most `n` tokens, in order.
(Rust `chunks` requires `n > 0`; the code always passes 512.) -/
def chunksOf (n : Nat) (l : List TokenId) : List (List TokenId) :=
  chunksOfAux n l.length l

/-- The per-position extraction step inside the decode loop of
`LlamaAnalyzer::analyze` (the body of the `for i in 0..chunk.len()` loop):
pair the position's candidate logits with the actual next token, if any,
and run the metrics calculator. -/
def extractOne (eng : Engine) (tokens : List TokenId) (gpos : Nat) :
    Nat × ℚ × List (TokenId × ℚ) :=
  let next_token : Option TokenId :=
    if gpos + 1 < tokens.length then some (tokens.getD (gpos + 1) 0) else none
  match next_token with
  | some next_tok =>
    let logits := eng.candidates gpos
    if logits = [] then (1, 0, [])
    else calculate_token_metrics eng.fexp logits (some next_tok)
  | none => (1, 0, [])

/-- The chunked decode loop of `LlamaAnalyzer::analyze`: for each chunk,
send a `Progress` message, submit the decode call, and on success extract
the compact per-position results; a decode failure aborts the loop with
the error.  Returns the event trace and the compact results. -/
def decodeLoop (eng : Engine) (tokens : List TokenId) :
    List (List TokenId) → Nat →
      List Event × Except String (List (Nat × ℚ × List (TokenId × ℚ)))
  | [], _ => ([], Except.ok [])
  | chunk :: rest, processed =>
    let pre : List Event :=
      [Event.msg (WorkerMessage.progress processed tokens.length),
       Event.decodeCall processed chunk]
    match eng.decodeChunk processed chunk with
    | Except.error e => (pre, Except.error ("Failed to decode batch: " ++ e))
    | Except.ok _ =>
      let res := (List.range chunk.length).map (fun i => extractOne eng tokens (processed + i))
      let next := decodeLoop eng tokens rest (processed + chunk.length)
      (pre ++ next.1, next.2.map (fun tail => res ++ tail))

/-- Rust `LlamaAnalyzer::analyze` in `llamacpp.rs`.  Returns the event trace
(channel sends and decode submissions, in order) and the outcome. -/
def analyze (eng : Engine) (text : String) :
    List Event × Except String AnalysisResult :=
  let pre : List Event := [Event.msg (WorkerMessage.progress 0 1)]
  match eng.tokenize text AddBos.always with
  | Except.error e => (pre, Except.error ("Failed to tokenize: " ++ e))
  | Except.ok tokens =>
    if tokens = [] then (pre, Except.ok ⟨[], 0⟩)
    else
      let total := tokens.length
      let n_ctx := max (total + 512) 4096
      match eng.newContext n_ctx 512 with
      | Except.error e => (pre, Except.error ("Failed to create context: " ++ e))
      | Except.ok _ =>
        match decodeLoop eng tokens (chunksOf 512 tokens) 0 with
        | (evs, Except.error e) => (pre ++ evs, Except.error e)
        | (evs, Except.ok compact) =>
          let evs2 := evs ++ [Event.msg (WorkerMessage.progress total total)]
          let analyzed := (List.range total).map (fun i =>
            let tok := tokens.getD i 0
            let ttext := (eng.tokenToStr tok).getD (bracketed tok)
            let rpt :=
              if i = 0 then ((1 : Nat), (0 : ℚ), ([] : List (TokenId × ℚ)))
              else compact.getD (i - 1) (1, 0, [])
            let top_predictions := rpt.2.2.map
              (fun p => ((eng.tokenToStr p.1).getD (bracketed p.1), p.2))
            AnalyzedToken.new ttext rpt.1 top_predictions rpt.2.1)
          (pre ++ evs2, Except.ok ⟨analyzed, 0⟩)

/-- Rust `LlamaAnalyzer::count_tokens` in `llamacpp.rs` — tokenize with
`AddBos::Never`, a failure counts as 0. -/
def count_tokens (eng : Engine) (text : String) : Nat :=
  match eng.tokenize text AddBos.never with
  | Except.ok tokens => tokens.length
  | Except.error _ => 0

/-- The channel messages among an event trace, in order. -/
def eventMessages (evs : List Event) : List WorkerMessage :=
  evs.filterMap (fun e =>
    match e with
    | Event.msg m => some m
    | Event.decodeCall _ _ => none)

/-- One iteration of the `run_analysis_worker` command loop: the messages
sent in response to a single command (`Shutdown` sends none and exits). -/
def handleCommand (eng : Engine) : WorkerCommand → List WorkerMessage
  | WorkerCommand.analyze text =>
    let out := analyze eng text
    let terminal :=
      match out.2 with
      | Except.ok r => WorkerMessage.completed r
      | Except.error e => WorkerMessage.error e
    WorkerMessage.started :: (eventMessages out.1 ++ [terminal])
  | WorkerCommand.tokenize text => [WorkerMessage.tokenCount (count_tokens eng text)]
  | WorkerCommand.shutdown => []

/-- A terminal message of an `Analyze` run: `Completed` or `Error`. -/
def isTerminal : WorkerMessage → Bool
  | WorkerMessage.completed _ => true
  | WorkerMessage.error _ => true
  | _ => false

/-- A `Progress` message. -/
def isProgress : WorkerMessage → Bool
  | WorkerMessage.progress _ _ => true
  | _ => false

/-- The three-token result of the `utils.rs` unit tests:
ranks `[1, 5, 10]`, probabilities `[0.9, 0.1, 0.05]`. -/
def exR3 : AnalysisResult :=
  ⟨[AnalyzedToken.new "a" 1 [] (9 / 10), AnalyzedToken.new "b" 5 [] (1 / 10),
    AnalyzedToken.new "c" 10 [] (1 / 20)], 100⟩

/-- A two-token result used to separate the `N` and `N - 1` entropy
multipliers. -/
def exR2 : AnalysisResult :=
  ⟨[AnalyzedToken.new "a" 1 [] 0, AnalyzedToken.new "b" 5 [] (1 / 2)], 100⟩

/-- Claim C3: `average_rank` is the arithmetic mean of `rank` over the
`N - 1` tokens with index 0 excluded, `exact_prediction_percentage` is
100 times the fraction of those tokens with rank 1, both are `0` for
`N ≤ 1`, and for ranks `[1, 5, 10]` the average rank is `7.5`. -/
theorem average_rank_mean_excl_first (r : AnalysisResult) :
    (r.tokens.length ≤ 1 →
      r.average_rank = 0 ∧ r.exact_prediction_percentage = 0) ∧
    (2 ≤ r.tokens.length →
      r.average_rank =
        (((r.tokens.drop 1).map (fun t => t.rank)).sum : ℚ) /
          ((r.tokens.length : ℚ) - 1) ∧
      r.exact_prediction_percentage =
        100 * (((r.tokens.drop 1).filter (fun t => t.rank == 1)).length : ℚ) /
          ((r.tokens.length : ℚ) - 1)) ∧
    AnalysisResult.average_rank exR3 = 15 / 2 := by
  refine ⟨fun h => ?_, fun h => ⟨?_, ?_⟩, ?_⟩
  · constructor <;>
      simp [AnalysisResult.average_rank, AnalysisResult.exact_prediction_percentage, h]
  · simp only [AnalysisResult.average_rank, if_neg (by omega : ¬ r.tokens.length ≤ 1)]
    rw [List.length_drop, Nat.cast_sub (by omega)]
    norm_num
  · simp only [AnalysisResult.exact_prediction_percentage,
      if_neg (by omega : ¬ r.tokens.length ≤ 1)]
    rw [List.length_drop, Nat.cast_sub (by omega)]
    push_cast
    ring
  · norm_num [exR3, AnalysisResult.average_rank, AnalyzedToken.new]

/-- Witness for C3 at the three-token example. -/
theorem average_rank_mean_excl_first_w :
    AnalysisResult.average_rank exR3 =
      (((exR3.tokens.drop 1).map (fun t => t.rank)).sum : ℚ) /
        ((exR3.tokens.length : ℚ) - 1) ∧
    AnalysisResult.exact_prediction_percentage exR3 =
      100 * (((exR3.tokens.drop 1).filter (fun t => t.rank == 1)).length : ℚ) /
        ((exR3.tokens.length : ℚ) - 1) :=
  (average_rank_mean_excl_first exR3).2.1 (by decide)

/-- Counterexample to claim C2: with `ln`, `exp`, `log2` all interpreted
as the identity, the two-token example has `text_entropy = -1` but
`(N - 1) * log2(perplexity) = -1/2`: the code multiplies by the full
token count `N`, not by `N - 1`. -/
theorem text_entropy_cex :
    ¬ (AnalysisResult.text_entropy (fun x => x) (fun x => x) (fun x => x) exR2 =
        ((exR2.tokens.length : ℚ) - 1) *
          AnalysisResult.perplexity (fun x => x) (fun x => x) exR2) := by
  norm_num [exR2, AnalysisResult.text_entropy, AnalysisResult.perplexity, AnalyzedToken.new]

/-- Claim C2 (amended): `text_entropy` is `0` for `N ≤ 1` and equals
`N * log2(perplexity)` for `N ≥ 2`, where `N` is the full token count
(the first token is excluded inside `perplexity`, but the multiplier is
the full length). -/
theorem text_entropy_full_count (fln fexp flog2 : ℚ → ℚ) (r : AnalysisResult) :
    (r.tokens.length ≤ 1 → r.text_entropy fln fexp flog2 = 0) ∧
    (2 ≤ r.tokens.length →
      r.text_entropy fln fexp flog2 =
        (r.tokens.length : ℚ) * flog2 (r.perplexity fln fexp)) := by
  refine ⟨fun h => ?_, fun h => ?_⟩
  · simp [AnalysisResult.text_entropy, h]
  · simp only [AnalysisResult.text_entropy, if_neg (by omega : ¬ r.tokens.length ≤ 1)]

/-- Witness for C2 (amended) at the two-token example. -/
theorem text_entropy_full_count_w :
    AnalysisResult.text_entropy (fun x => x) (fun x => x) (fun x => x) exR2 =
      (exR2.tokens.length : ℚ) *
        AnalysisResult.perplexity (fun x => x) (fun x => x) exR2 :=
  (text_entropy_full_count (fun x => x) (fun x => x) (fun x => x) exR2).2 (by decide)

/-- An engine whose tokenizer always fails. -/
def engTokErr : Engine :=
  { fexp := fun x => x
    tokenize := fun _ _ => Except.error "tok"
    newContext := fun _ _ => Except.ok ()
    decodeChunk := fun _ _ => Except.ok ()
    candidates := fun _ => []
    tokenToStr := fun n => some (toString n) }

/-- A fully successful toy engine: every text tokenizes to `[1, 2]`
(with `AddBos.never`), every decode succeeds, and every position sees
the candidates `[(2, 1), (1, 0)]`. -/
def engOk : Engine :=
  { fexp := fun x => x
    tokenize := fun _ _ => Except.ok [1, 2]
    newContext := fun _ _ => Except.ok ()
    decodeChunk := fun _ _ => Except.ok ()
    candidates := fun _ => [(2, 1), (1, 0)]
    tokenToStr := fun n => some (toString n) }

/-- Claim C9: a `Tokenize` command is answered with `TokenCount(0)` when
tokenization fails (no `Error` message), and with the token-sequence
length when it succeeds. -/
theorem tokenize_count (eng : Engine) (text : String) :
    (∀ e, eng.tokenize text AddBos.never = Except.error e →
      handleCommand eng (WorkerCommand.tokenize text) = [WorkerMessage.tokenCount 0]) ∧
    (∀ ts, eng.tokenize text AddBos.never = Except.ok ts →
      handleCommand eng (WorkerCommand.tokenize text) =
        [WorkerMessage.tokenCount ts.length]) := by
  constructor
  · intro e he
    simp [handleCommand, count_tokens, he]
  · intro ts hts
    simp [handleCommand, count_tokens, hts]

/-- Witness for C9: a failing tokenizer yields `TokenCount 0`, a
successful one yields the sequence length. -/
theorem tokenize_count_w :
    handleCommand engTokErr (WorkerCommand.tokenize "x") = [WorkerMessage.tokenCount 0] ∧
    handleCommand engOk (WorkerCommand.tokenize "x") = [WorkerMessage.tokenCount 2] :=
  ⟨(tokenize_count engTokErr "x").1 "tok" rfl,
   (tokenize_count engOk "x").2 [1, 2] rfl⟩

theorem sortDesc_perm (l : List (TokenId × ℚ)) : (sortDesc l).Perm l :=
  List.mergeSort_perm l logitDesc

theorem sortDesc_pairwise (l : List (TokenId × ℚ)) :
    List.Pairwise (fun p q : TokenId × ℚ => q.2 ≤ p.2) (sortDesc l) := by
  have htrans : ∀ a b c : TokenId × ℚ,
      logitDesc a b = true → logitDesc b c = true → logitDesc a c = true := by
    intro a b c hab hbc
    simp only [logitDesc, decide_eq_true_eq] at *
    exact le_trans hbc hab
  have htotal : ∀ a b : TokenId × ℚ, (logitDesc a b || logitDesc b a) = true := by
    intro a b
    simp only [logitDesc, Bool.or_eq_true, decide_eq_true_eq]
    exact le_total b.2 a.2
  exact (List.sorted_mergeSort htrans htotal l).imp
    (fun hab => by simpa [logitDesc] using hab)

theorem findTarget_eq_none_iff (l : List (TokenId × ℚ)) (tid : TokenId) :
    findTarget l tid = none ↔ ∀ p ∈ l, p.1 ≠ tid := by
  induction l with
  | nil => simp [findTarget]
  | cons p ps ih =>
    by_cases hp : p.1 = tid
    · simp [findTarget, hp]
    · simp [findTarget, hp, Option.map_eq_none', ih]

theorem findTarget_getElem (l : List (TokenId × ℚ)) (tid : TokenId) (i : Nat) (v : ℚ)
    (h : findTarget l tid = some (i, v)) :
    ∃ hi : i < l.length, l.get ⟨i, hi⟩ = (tid, v) := by
  induction l generalizing i with
  | nil => simp [findTarget] at h
  | cons p ps ih =>
    by_cases hp : p.1 = tid
    · simp only [findTarget, if_pos hp, Option.some.injEq, Prod.mk.injEq] at h
      obtain ⟨hi, hv⟩ := h
      subst hi hv
      refine ⟨by simp, ?_⟩
      simp [← hp]
    · simp only [findTarget, if_neg hp, Option.map_eq_some'] at h
      obtain ⟨⟨j, w⟩, hj, heq⟩ := h
      simp only [Prod.mk.injEq] at heq
      obtain ⟨hji, hwv⟩ := heq
      subst hji hwv
      obtain ⟨hjlt, hget⟩ := ih j hj
      exact ⟨by simpa using Nat.succ_lt_succ hjlt, by simpa using hget⟩

theorem findTarget_indexOf (l : List (TokenId × ℚ)) (tid : TokenId) (i : Nat) (v : ℚ)
    (h : findTarget l tid = some (i, v)) :
    (l.map Prod.fst).indexOf tid = i := by
  induction l generalizing i with
  | nil => simp [findTarget] at h
  | cons p ps ih =>
    by_cases hp : p.1 = tid
    · simp only [findTarget, if_pos hp, Option.some.injEq, Prod.mk.injEq] at h
      obtain ⟨hi, _⟩ := h
      subst hi
      simp [List.indexOf_cons, hp]
    · simp only [findTarget, if_neg hp, Option.map_eq_some'] at h
      obtain ⟨⟨j, w⟩, hj, heq⟩ := h
      simp only [Prod.mk.injEq] at heq
      obtain ⟨hji, hwv⟩ := heq
      subst hwv
      subst hji
      have hbeq : (p.1 == tid) = false := by
        simp [hp]
      simp [List.indexOf_cons, hbeq, ih j hj]

theorem findTarget_ne_none_of_mem (l : List (TokenId × ℚ)) (tid : TokenId) (lv : ℚ)
    (hmem : (tid, lv) ∈ l) : findTarget l tid ≠ none := by
  intro hnone
  exact ((findTarget_eq_none_iff l tid).mp hnone) (tid, lv) hmem rfl

theorem fst_nodup_mem_eq {l : List (TokenId × ℚ)} {p q : TokenId × ℚ}
    (hnd : (l.map Prod.fst).Nodup) (hp : p ∈ l) (hq : q ∈ l) (h : p.1 = q.1) :
    p = q := by
  induction l with
  | nil => simp at hp
  | cons x xs ih =>
    simp only [List.map_cons, List.nodup_cons] at hnd
    obtain ⟨hx, hxs⟩ := hnd
    rcases List.mem_cons.mp hp with hpx | hpxs <;>
      rcases List.mem_cons.mp hq with hqx | hqxs
    · rw [hpx, hqx]
    · exfalso
      have hq1 : q.1 ∈ xs.map Prod.fst := List.mem_map_of_mem Prod.fst hqxs
      have hq2 : q.1 = x.1 := by rw [← h, hpx]
      exact hx (hq2 ▸ hq1)
    · exfalso
      have hp1 : p.1 ∈ xs.map Prod.fst := List.mem_map_of_mem Prod.fst hpxs
      have hp2 : p.1 = x.1 := by rw [h, hqx]
      exact hx (hp2 ▸ hp1)
    · exact ih hxs hpxs hqxs

/-- When the target id occurs in the candidate list (with pairwise
distinct ids), the metrics are: rank = index in the descending-sorted
list plus one, probability = `fexp (logit - max) / sum_exp`. -/
theorem calc_metrics_present (fexp : ℚ → ℚ) (logits : List (TokenId × ℚ))
    (tid : TokenId) (lv : ℚ) (hnd : (logits.map Prod.fst).Nodup)
    (hmem : (tid, lv) ∈ logits) :
    (calculate_token_metrics fexp logits (some tid)).1 =
      ((sortDesc logits).map Prod.fst).indexOf tid + 1 ∧
    (calculate_token_metrics fexp logits (some tid)).2.1 =
      fexp (lv - maxLogit logits) / sumExp fexp logits := by
  have hne : logits ≠ [] := List.ne_nil_of_mem hmem
  have hmemS : (tid, lv) ∈ sortDesc logits := (sortDesc_perm logits).mem_iff.mpr hmem
  have hndS : ((sortDesc logits).map Prod.fst).Nodup :=
    (((sortDesc_perm logits).map Prod.fst).nodup_iff).mpr hnd
  obtain ⟨⟨i, v⟩, hft⟩ :=
    Option.ne_none_iff_exists'.mp (findTarget_ne_none_of_mem _ tid lv hmemS)
  have hvl : v = lv := by
    obtain ⟨hi, hget⟩ := findTarget_getElem _ tid i v hft
    have hmemV : (tid, v) ∈ sortDesc logits := hget ▸ List.get_mem _ _ _
    have := fst_nodup_mem_eq hndS hmemV hmemS rfl
    exact congrArg Prod.snd this
  have hidx := findTarget_indexOf _ tid i v hft
  subst hvl
  have hc : calculate_token_metrics fexp logits (some tid) =
      (i + 1, fexp (v - maxLogit logits) / sumExp fexp logits, topPreds fexp logits) := by
    simp only [calculate_token_metrics, if_neg hne, hft]
  constructor
  · rw [hc, hidx]
  · rw [hc]

/-- When the target id does not occur in the candidate list, the metrics
fall back to rank 1, probability 0 (the top predictions are still
produced). -/
theorem calc_metrics_absent (fexp : ℚ → ℚ) (logits : List (TokenId × ℚ))
    (tid : TokenId) (hne : logits ≠ []) (habs : ∀ p ∈ logits, p.1 ≠ tid) :
    calculate_token_metrics fexp logits (some tid) = (1, 0, topPreds fexp logits) := by
  have habsS : ∀ p ∈ sortDesc logits, p.1 ≠ tid := fun p hp =>
    habs p ((sortDesc_perm logits).mem_iff.mp hp)
  have hft : findTarget (sortDesc logits) tid = none :=
    (findTarget_eq_none_iff _ tid).mpr habsS
  simp only [calculate_token_metrics, if_neg hne, hft]

/-- Claim C1: for a non-empty candidate list with pairwise-distinct ids,
`calculate_token_metrics` with a given target returns rank
`1 + (zero-based position of the target id in the list sorted descending
by logit)` and probability `fexp (its_logit - max_logit) / sum_exp` when
the id is present; when the id is absent it returns rank 1 and
probability 0 rather than failing. -/
theorem calc_metrics_rank_prob (fexp : ℚ → ℚ) (logits : List (TokenId × ℚ))
    (tid : TokenId) (hne : logits ≠ []) (hnd : (logits.map Prod.fst).Nodup) :
    ((∀ p ∈ logits, p.1 ≠ tid) →
      (calculate_token_metrics fexp logits (some tid)).1 = 1 ∧
      (calculate_token_metrics fexp logits (some tid)).2.1 = 0) ∧
    (∀ lv : ℚ, (tid, lv) ∈ logits →
      (calculate_token_metrics fexp logits (some tid)).1 =
        1 + ((sortDesc logits).map Prod.fst).indexOf tid ∧
      (calculate_token_metrics fexp logits (some tid)).2.1 =
        fexp (lv - maxLogit logits) / sumExp fexp logits) := by
  constructor
  · intro habs
    rw [calc_metrics_absent fexp logits tid hne habs]
    exact ⟨rfl, rfl⟩
  · intro lv hmem
    obtain ⟨h1, h2⟩ := calc_metrics_present fexp logits tid lv hnd hmem
    exact ⟨by omega, h2⟩

/-- Witness for C1 on the candidate list `[(2, 1), (1, 0)]`: target 9 is
absent (rank 1, probability 0), target 1 is present. -/
theorem calc_metrics_rank_prob_w :
    ((calculate_token_metrics (fun x => x) [(2, 1), (1, 0)] (some 9)).1 = 1 ∧
     (calculate_token_metrics (fun x => x) [(2, 1), (1, 0)] (some 9)).2.1 = 0) ∧
    ((calculate_token_metrics (fun x => x) [(2, 1), (1, 0)] (some 1)).1 =
       1 + ((sortDesc [(2, 1), (1, 0)]).map Prod.fst).indexOf 1 ∧
     (calculate_token_metrics (fun x => x) [(2, 1), (1, 0)] (some 1)).2.1 =
       (fun x => x) ((0 : ℚ) - maxLogit [(2, 1), (1, 0)]) /
         sumExp (fun x => x) [(2, 1), (1, 0)]) :=
  ⟨(calc_metrics_rank_prob (fun x => x) [(2, 1), (1, 0)] 9 (by simp) (by simp)).1
      (by intro p hp; fin_cases hp <;> simp),
   (calc_metrics_rank_prob (fun x => x) [(2, 1), (1, 0)] 1 (by simp) (by simp)).2 0
      (by simp)⟩

/-- Claim C6: over a fixed candidate set with pairwise-distinct ids, a
strictly greater raw logit yields a strictly smaller rank. -/
theorem rank_strict_mono (fexp : ℚ → ℚ) (logits : List (TokenId × ℚ))
    (a b : TokenId) (la lb : ℚ) (hnd : (logits.map Prod.fst).Nodup)
    (ha : (a, la) ∈ logits) (hb : (b, lb) ∈ logits) (hlt : lb < la) :
    (calculate_token_metrics fexp logits (some a)).1 <
      (calculate_token_metrics fexp logits (some b)).1 := by
  have hndS : ((sortDesc logits).map Prod.fst).Nodup :=
    (((sortDesc_perm logits).map Prod.fst).nodup_iff).mpr hnd
  have haS : (a, la) ∈ sortDesc logits := (sortDesc_perm logits).mem_iff.mpr ha
  have hbS : (b, lb) ∈ sortDesc logits := (sortDesc_perm logits).mem_iff.mpr hb
  have haid : a ∈ (sortDesc logits).map Prod.fst := List.mem_map_of_mem Prod.fst haS
  have hbid : b ∈ (sortDesc logits).map Prod.fst := List.mem_map_of_mem Prod.fst hbS
  have hia : ((sortDesc logits).map Prod.fst).indexOf a <
      ((sortDesc logits).map Prod.fst).length := List.indexOf_lt_length.mpr haid
  have hib : ((sortDesc logits).map Prod.fst).indexOf b <
      ((sortDesc logits).map Prod.fst).length := List.indexOf_lt_length.mpr hbid
  have hiaS : ((sortDesc logits).map Prod.fst).indexOf a < (sortDesc logits).length := by
    simpa using hia
  have hibS : ((sortDesc logits).map Prod.fst).indexOf b < (sortDesc logits).length := by
    simpa using hib
  have hgeta : (sortDesc logits).get ⟨_, hiaS⟩ = (a, la) := by
    have h1 : ((sortDesc logits).map Prod.fst).get ⟨_, hia⟩ = a := List.indexOf_get hia
    rw [List.get_map] at h1
    exact fst_nodup_mem_eq hndS (List.get_mem _ _ _) haS h1
  have hgetb : (sortDesc logits).get ⟨_, hibS⟩ = (b, lb) := by
    have h1 : ((sortDesc logits).map Prod.fst).get ⟨_, hib⟩ = b := List.indexOf_get hib
    rw [List.get_map] at h1
    exact fst_nodup_mem_eq hndS (List.get_mem _ _ _) hbS h1
  have hidx : ((sortDesc logits).map Prod.fst).indexOf a <
      ((sortDesc logits).map Prod.fst).indexOf b := by
    rcases Nat.lt_trichotomy (((sortDesc logits).map Prod.fst).indexOf a)
      (((sortDesc logits).map Prod.fst).indexOf b) with h | h | h
    · exact h
    · exfalso
      have : (a, la) = (b, lb) := by
        rw [← hgeta, ← hgetb]
        congr 1
        exact Fin.ext h
      have : la = lb := congrArg Prod.snd this
      exact absurd this (by intro hq; rw [hq] at hlt; exact lt_irrefl lb hlt)
    · exfalso
      have hpw := (List.pairwise_iff_get.mp (sortDesc_pairwise logits))
        ⟨_, hibS⟩ ⟨_, hiaS⟩ h
      rw [hgeta, hgetb] at hpw
      exact absurd hpw (not_le.mpr hlt)
  have hra := (calc_metrics_present fexp logits a la hnd ha).1
  have hrb := (calc_metrics_present fexp logits b lb hnd hb).1
  rw [hra, hrb]
  omega

/-- Witness for C6: in `[(2, 1), (1, 0)]`, token 2 (logit 1) outranks
token 1 (logit 0). -/
theorem rank_strict_mono_w :
    (calculate_token_metrics (fun x => x) [(2, 1), (1, 0)] (some 2)).1 <
      (calculate_token_metrics (fun x => x) [(2, 1), (1, 0)] (some 1)).1 :=
  rank_strict_mono (fun x => x) [(2, 1), (1, 0)] 2 1 1 0 (by simp) (by simp) (by simp)
    (by norm_num)

/-- Events an `analyze` run can record: `Progress` message sends and
decode submissions (never a terminal message). -/
def benignEvent : Event → Bool
  | Event.msg (WorkerMessage.progress _ _) => true
  | Event.msg _ => false
  | Event.decodeCall _ _ => true

theorem decodeLoop_events_benign (eng : Engine) (tokens : List TokenId) :
    ∀ (chunks : List (List TokenId)) (processed : Nat),
      ∀ e ∈ (decodeLoop eng tokens chunks processed).1, benignEvent e = true := by
  intro chunks
  induction chunks with
  | nil => intro processed e he; simp [decodeLoop] at he
  | cons chunk rest ih =>
    intro processed e he
    rcases hd : eng.decodeChunk processed chunk with err | u
    · simp only [decodeLoop, hd, List.mem_cons, List.not_mem_nil,
        or_false] at he
      rcases he with rfl | rfl
      · rfl
      · rfl
    · simp only [decodeLoop, hd, List.cons_append, List.nil_append,
        List.mem_cons] at he
      rcases he with rfl | rfl | he
      · rfl
      · rfl
      · exact ih (processed + chunk.length) e he

theorem analyze_events_benign (eng : Engine) (text : String) :
    ∀ e ∈ (analyze eng text).1, benignEvent e = true := by
  intro e he
  rcases htok : eng.tokenize text AddBos.always with err | tokens
  · simp only [analyze, htok, List.mem_singleton] at he
    rw [he]; rfl
  · by_cases hemp : tokens = []
    · simp only [analyze, htok, if_pos hemp, List.mem_singleton] at he
      rw [he]; rfl
    · rcases hctx : eng.newContext (max (tokens.length + 512) 4096) 512 with err | u
      · simp only [analyze, htok, if_neg hemp, hctx, List.mem_singleton] at he
        rw [he]; rfl
      · rcases hdl : decodeLoop eng tokens (chunksOf 512 tokens) 0 with ⟨evs, res⟩
        have hben := decodeLoop_events_benign eng tokens (chunksOf 512 tokens) 0
        rw [hdl] at hben
        rcases res with rerr | compact
        · simp only [analyze, htok, if_neg hemp, hctx, hdl, List.cons_append,
            List.nil_append, List.mem_cons] at he
          rcases he with rfl | he
          · rfl
          · exact hben e he
        · simp only [analyze, htok, if_neg hemp, hctx, hdl, List.cons_append,
            List.nil_append, List.mem_cons, List.mem_append,
            List.mem_singleton] at he
          rcases he with rfl | he | he
          · rfl
          · exact hben e he
          · rcases he with rfl | he
            · rfl
            · simp at he

theorem cons_append_singleton_getLast {α : Type} (a t : α) (l : List α) :
    (a :: (l ++ [t])).getLast? = some t := by
  rw [← List.cons_append, List.getLast?_concat]

theorem eventMessages_progress (evs : List Event)
    (h : ∀ e ∈ evs, benignEvent e = true) :
    ∀ m ∈ eventMessages evs, isProgress m = true := by
  intro m hm
  obtain ⟨e, hmem, hsome⟩ := List.mem_filterMap.mp hm
  cases e with
  | msg msg =>
    have hb := h _ hmem
    have hme : msg = m := by simpa using hsome
    subst hme
    cases msg <;> simp_all [benignEvent, isProgress]
  | decodeCall s c => simp at hsome

/-- Claim C5: per `Analyze` command the worker sends `Started` first,
then exactly one terminal (`Completed` or `Error`) message, as the last
message; on any failure (tokenize, context creation, batch decode) the
terminal is a single `Error` and no `Completed` — hence no
`AnalyzedToken` sequence, partial or otherwise — is emitted. -/
theorem analyze_single_terminal (eng : Engine) (text : String) :
    (handleCommand eng (WorkerCommand.analyze text)).head? =
      some WorkerMessage.started ∧
    ((handleCommand eng (WorkerCommand.analyze text)).filter isTerminal).length = 1 ∧
    (∀ m, (handleCommand eng (WorkerCommand.analyze text)).getLast? = some m →
      isTerminal m = true) ∧
    (∀ e, (analyze eng text).2 = Except.error e →
      (∀ r : AnalysisResult,
        WorkerMessage.completed r ∉ handleCommand eng (WorkerCommand.analyze text)) ∧
      (handleCommand eng (WorkerCommand.analyze text)).getLast? =
        some (WorkerMessage.error e)) := by
  have hprog := eventMessages_progress (analyze eng text).1
    (analyze_events_benign eng text)
  have hfilter : (eventMessages (analyze eng text).1).filter isTerminal = [] := by
    refine List.filter_eq_nil_iff.mpr ?_
    intro m hm
    have hpm := hprog m hm
    cases m <;> simp_all [isProgress, isTerminal]
  have hterm : isTerminal
      (match (analyze eng text).2 with
       | Except.ok r => WorkerMessage.completed r
       | Except.error e => WorkerMessage.error e) = true := by
    rcases (analyze eng text).2 with e | r <;> rfl
  refine ⟨rfl, ?_, ?_, ?_⟩
  · simp only [handleCommand, List.filter_cons, List.filter_append, hfilter]
    rcases (analyze eng text).2 with e | r <;> rfl
  · intro m hm
    simp only [handleCommand] at hm
    rw [cons_append_singleton_getLast] at hm
    obtain rfl := Option.some.inj hm
    exact hterm
  · intro e he
    constructor
    · intro r hr
      simp only [handleCommand, he, List.mem_cons, List.mem_append,
        List.mem_singleton] at hr
      rcases hr with hr | hr | hr
      · exact absurd hr (by simp)
      · have hpm := hprog _ hr
        simp [isProgress] at hpm
      · exact absurd hr (by simp)
    · simp only [handleCommand, he]
      exact cons_append_singleton_getLast _ _ _

/-- An engine whose batch decode always fails. -/
def engDecErr : Engine :=
  { fexp := fun x => x
    tokenize := fun _ _ => Except.ok [1, 2]
    newContext := fun _ _ => Except.ok ()
    decodeChunk := fun _ _ => Except.error "boom"
    candidates := fun _ => [(2, 1), (1, 0)]
    tokenToStr := fun n => some (toString n) }

/-- Witness for C5: on a decode failure the run ends with exactly one
terminal message, the `Error`, and starts with `Started`. -/
theorem analyze_single_terminal_w :
    (handleCommand engDecErr (WorkerCommand.analyze "x")).head? =
      some WorkerMessage.started ∧
    ((handleCommand engDecErr (WorkerCommand.analyze "x")).filter isTerminal).length = 1 ∧
    (handleCommand engDecErr (WorkerCommand.analyze "x")).getLast? =
      some (WorkerMessage.error "Failed to decode batch: boom") := by
  have h := analyze_single_terminal engDecErr "x"
  exact ⟨h.1, h.2.1, (h.2.2.2 "Failed to decode batch: boom" rfl).2⟩

theorem topPreds_length (fexp : ℚ → ℚ) (logits : List (TokenId × ℚ)) :
    (topPreds fexp logits).length = min 5 logits.length := by
  simp [topPreds, (sortDesc_perm logits).length_eq]

/-- Inside `calculate_token_metrics` the top predictions do not depend on
the target at all: present, absent, or not given. -/
theorem calc_metrics_top (fexp : ℚ → ℚ) (logits : List (TokenId × ℚ))
    (target : Option TokenId) (hne : logits ≠ []) :
    (calculate_token_metrics fexp logits target).2.2 = topPreds fexp logits := by
  simp only [calculate_token_metrics, if_neg hne]

/-- An engine under which every text tokenizes to the single token `5`,
with a non-empty candidate set at every position. -/
def engFinal : Engine :=
  { fexp := fun x => x
    tokenize := fun _ _ => Except.ok [5]
    newContext := fun _ _ => Except.ok ()
    decodeChunk := fun _ _ => Except.ok ()
    candidates := fun _ => [(0, 1), (1, 0)]
    tokenToStr := fun _ => some "t" }

/-- Counterexample to claim C4: under `engFinal` the analyzed sequence is
a single token, so its one position is the final position; its candidate
set is non-empty and the first-5-of-sorted list has 2 entries, yet the
reported top predictions for that position are empty — `analyze` skips
the metrics entirely at a position with no actual next token. -/
theorem top_preds_final_cex :
    engFinal.candidates 0 ≠ [] ∧
    (topPreds engFinal.fexp (engFinal.candidates 0)).length = 2 ∧
    (analyze engFinal "x").2 =
      Except.ok ⟨[AnalyzedToken.new "t" 1 [] 0], 0⟩ := by
  refine ⟨by simp [engFinal], ?_, rfl⟩
  rw [topPreds_length]
  rfl

/-- Claim C4 (amended): at every analyzed position that has an actual
next token, the top predictions are the first 5 entries of the
descending-sorted candidate list with their softmax probabilities,
computed regardless of whether the actual next token occurs among the
candidates (even when a probability of 0.0 is reported for it); at a
position with no actual next token (the final position) the metrics are
skipped and the top predictions are empty. -/
theorem top_preds_with_next (eng : Engine) (tokens : List TokenId) (gpos : Nat) :
    (gpos + 1 < tokens.length → eng.candidates gpos ≠ [] →
      (extractOne eng tokens gpos).2.2 = topPreds eng.fexp (eng.candidates gpos)) ∧
    (tokens.length ≤ gpos + 1 → extractOne eng tokens gpos = (1, 0, [])) := by
  constructor
  · intro hlt hne
    simp only [extractOne, if_pos hlt, if_neg hne]
    exact calc_metrics_top eng.fexp (eng.candidates gpos) _ hne
  · intro hge
    simp only [extractOne, if_neg (by omega : ¬ gpos + 1 < tokens.length)]

/-- Witness for C4 (amended) under `engOk`: position 0 of `[1, 2]` has a
next token and gets the sorted top predictions, position 1 is final and
gets none. -/
theorem top_preds_with_next_w :
    (extractOne engOk [1, 2] 0).2.2 = topPreds engOk.fexp (engOk.candidates 0) ∧
    extractOne engOk [1, 2] 1 = (1, 0, []) :=
  ⟨(top_preds_with_next engOk [1, 2] 0).1 (by decide) (by simp [engOk]),
   (top_preds_with_next engOk [1, 2] 1).2 (by decide)⟩

/-- An engine whose tokenizer returns the empty token sequence. -/
def engEmpty : Engine :=
  { fexp := fun x => x
    tokenize := fun _ _ => Except.ok []
    newContext := fun _ _ => Except.ok ()
    decodeChunk := fun _ _ => Except.ok ()
    candidates := fun _ => []
    tokenToStr := fun _ => none }

/-- Counterexample to claim C8: when the text tokenizes to zero tokens
the worker sends `Started`, then the preliminary `Progress{0, 1}` that
`analyze` emits before tokenizing, then `Completed` — so `Completed` does
not follow `Started` immediately: the message at index 1 is a
`Progress`. -/
theorem empty_analyze_cex :
    handleCommand engEmpty (WorkerCommand.analyze "") =
      [WorkerMessage.started, WorkerMessage.progress 0 1,
       WorkerMessage.completed ⟨[], 0⟩] ∧
    (handleCommand engEmpty (WorkerCommand.analyze ""))[1]? =
      some (WorkerMessage.progress 0 1) ∧
    isTerminal (WorkerMessage.progress 0 1) = false :=
  ⟨rfl, rfl, rfl⟩

/-- Claim C8 (amended): if the input tokenizes to zero tokens, the worker
sends `Started`, then the single preliminary `Progress{current: 0,
total: 1}`, then immediately `Completed` with an empty token sequence;
the whole decode loop is skipped — no decode call is ever submitted. -/
theorem empty_analyze (eng : Engine) (text : String)
    (h : eng.tokenize text AddBos.always = Except.ok []) :
    handleCommand eng (WorkerCommand.analyze text) =
      [WorkerMessage.started, WorkerMessage.progress 0 1,
       WorkerMessage.completed ⟨[], 0⟩] ∧
    ∀ s c, Event.decodeCall s c ∉ (analyze eng text).1 := by
  have ha : analyze eng text =
      ([Event.msg (WorkerMessage.progress 0 1)], Except.ok ⟨[], 0⟩) := by
    simp [analyze, h]
  constructor
  · simp [handleCommand, ha, eventMessages]
  · intro s c hmem
    rw [ha] at hmem
    simp at hmem

/-- Witness for C8 (amended) on `engEmpty`. -/
theorem empty_analyze_w :
    handleCommand engEmpty (WorkerCommand.analyze "") =
      [WorkerMessage.started, WorkerMessage.progress 0 1,
       WorkerMessage.completed ⟨[], 0⟩] :=
  (empty_analyze engEmpty "" rfl).1

theorem decodeLoop_progress_before_decode (eng : Engine) (tokens : List TokenId) :
    ∀ (chunks : List (List TokenId)) (processed j s : Nat) (ch : List TokenId),
      ((decodeLoop eng tokens chunks processed).1)[j]? =
          some (Event.decodeCall s ch) →
      1 ≤ j ∧ ((decodeLoop eng tokens chunks processed).1)[j - 1]? =
          some (Event.msg (WorkerMessage.progress s tokens.length)) := by
  intro chunks
  induction chunks with
  | nil =>
    intro processed j s ch hj
    simp [decodeLoop] at hj
  | cons chunk rest ih =>
    intro processed j s ch hj
    rcases hd : eng.decodeChunk processed chunk with err | u
    · simp only [decodeLoop, hd] at hj ⊢
      rcases j with _ | n
      · simp at hj
      · rcases n with _ | n
        · simp only [List.getElem?_cons_succ, List.getElem?_cons_zero,
            Option.some.injEq, Event.decodeCall.injEq] at hj
          obtain ⟨rfl, rfl⟩ := hj
          exact ⟨le_refl 1, rfl⟩
        · simp at hj
    · simp only [decodeLoop, hd, List.cons_append, List.nil_append] at hj ⊢
      rcases j with _ | n
      · simp at hj
      · rcases n with _ | n
        · simp only [List.getElem?_cons_succ, List.getElem?_cons_zero,
            Option.some.injEq, Event.decodeCall.injEq] at hj
          obtain ⟨rfl, rfl⟩ := hj
          exact ⟨le_refl 1, rfl⟩
        · simp only [List.getElem?_cons_succ] at hj
          obtain ⟨h1, hprev⟩ := ih (processed + chunk.length) n s ch hj
          obtain ⟨m, rfl⟩ : ∃ m, n = m + 1 := ⟨n - 1, by omega⟩
          refine ⟨by omega, ?_⟩
          simpa using hprev

/-- Claim C7: whenever `analyze` submits a chunk to the engine, the event
immediately before the decode submission in the trace is a `Progress`
message whose `current` is the chunk's first absolute token position —
exactly the number of tokens already processed, 0 for the first chunk —
and whose `total` is the full token count.  (The decode loop threads the
processed-token counter into both the `Progress` message and the decode
call, so the equality of the two is by construction of the shared
counter.) -/
theorem progress_before_decode (eng : Engine) (text : String)
    (tokens : List TokenId)
    (htok : eng.tokenize text AddBos.always = Except.ok tokens)
    (hne : tokens ≠ []) :
    ∀ (j s : Nat) (ch : List TokenId),
      ((analyze eng text).1)[j]? = some (Event.decodeCall s ch) →
      1 ≤ j ∧ ((analyze eng text).1)[j - 1]? =
        some (Event.msg (WorkerMessage.progress s tokens.length)) := by
  intro j s ch hj
  rcases hctx : eng.newContext (max (tokens.length + 512) 4096) 512 with err | u
  · simp only [analyze, htok, if_neg hne, hctx] at hj
    rcases j with _ | n <;> simp at hj
  · rcases hdl : decodeLoop eng tokens (chunksOf 512 tokens) 0 with ⟨evs, res⟩
    have hloop := decodeLoop_progress_before_decode eng tokens (chunksOf 512 tokens) 0
    rw [hdl] at hloop
    rcases res with rerr | compact
    · simp only [analyze, htok, if_neg hne, hctx, hdl, List.cons_append,
        List.nil_append] at hj ⊢
      rcases j with _ | n
      · simp at hj
      · simp only [List.getElem?_cons_succ] at hj
        obtain ⟨h1, hprev⟩ := hloop n s ch hj
        obtain ⟨m, rfl⟩ : ∃ m, n = m + 1 := ⟨n - 1, by omega⟩
        exact ⟨by omega, by simpa using hprev⟩
    · simp only [analyze, htok, if_neg hne, hctx, hdl, List.cons_append,
        List.nil_append] at hj ⊢
      rcases j with _ | n
      · simp at hj
      · simp only [List.getElem?_cons_succ] at hj
        by_cases hn : n < evs.length
        · rw [List.getElem?_append, if_pos hn] at hj
          obtain ⟨h1, hprev⟩ := hloop n s ch hj
          obtain ⟨m, rfl⟩ : ∃ m, n = m + 1 := ⟨n - 1, by omega⟩
          refine ⟨by omega, ?_⟩
          simp only [Nat.add_sub_cancel, List.getElem?_cons_succ]
          rw [List.getElem?_append, if_pos (by omega)]
          simpa using hprev
        · rw [List.getElem?_append, if_neg hn] at hj
          rcases hsub : n - evs.length with _ | k <;> rw [hsub] at hj <;> simp at hj

/-- Witness for C7 under `engOk`: the decode call for the single chunk of
`[1, 2]` sits at trace index 2, immediately after `Progress{0, 2}`. -/
theorem progress_before_decode_w :
    1 ≤ 2 ∧ ((analyze engOk "x").1)[2 - 1]? =
      some (Event.msg (WorkerMessage.progress 0 2)) :=
  progress_before_decode engOk "x" [1, 2] rfl (by simp) 2 0 [1, 2] rfl

theorem decodeLoop_ok (eng : Engine) (tokens : List TokenId)
    (hdec : ∀ p c, eng.decodeChunk p c = Except.ok ()) :
    ∀ (chunks : List (List TokenId)) (processed : Nat), ∃ compact,
      (decodeLoop eng tokens chunks processed).2 = Except.ok compact := by
  intro chunks
  induction chunks with
  | nil => intro processed; exact ⟨[], rfl⟩
  | cons chunk rest ih =>
    intro processed
    obtain ⟨compact, hc⟩ := ih (processed + chunk.length)
    refine ⟨(List.range chunk.length).map
      (fun i => extractOne eng tokens (processed + i)) ++ compact, ?_⟩
    simp only [decodeLoop, hdec processed chunk]
    rw [hc]
    rfl

theorem analyze_ok_length (eng : Engine) (text : String)
    (tokens : List TokenId)
    (htok : eng.tokenize text AddBos.always = Except.ok tokens)
    (hne : tokens ≠ [])
    (hctx : ∀ a b, eng.newContext a b = Except.ok ())
    (hdec : ∀ p c, eng.decodeChunk p c = Except.ok ()) :
    ∃ r, (analyze eng text).2 = Except.ok r ∧
      r.tokens.length = tokens.length := by
  obtain ⟨compact, hc⟩ := decodeLoop_ok eng tokens hdec (chunksOf 512 tokens) 0
  rcases hdl : decodeLoop eng tokens (chunksOf 512 tokens) 0 with ⟨evs, res⟩
  rw [hdl] at hc
  obtain rfl : res = Except.ok compact := hc
  rcases hres : (analyze eng text).2 with e | r
  · simp only [analyze, htok, if_neg hne,
      hctx (max (tokens.length + 512) 4096) 512, hdl] at hres
    exact absurd hres (by simp)
  · refine ⟨r, rfl, ?_⟩
    simp only [analyze, htok, if_neg hne,
      hctx (max (tokens.length + 512) 4096) 512, hdl, Except.ok.injEq] at hres
    rw [← hres]
    simp

/-- Claim C10: `count_tokens` tokenizes with `AddBos.never` while
`analyze` tokenizes with `AddBos.always`; for an engine where the
`always` form prepends a leading BOS token, the `TokenCount` reply and
the number of `AnalyzedToken`s in the completed result for the same text
differ by exactly one. -/
theorem bos_count_mismatch (eng : Engine) (text : String)
    (ts : List TokenId) (bos : TokenId)
    (hnever : eng.tokenize text AddBos.never = Except.ok ts)
    (halways : eng.tokenize text AddBos.always = Except.ok (bos :: ts))
    (hctx : ∀ a b, eng.newContext a b = Except.ok ())
    (hdec : ∀ p c, eng.decodeChunk p c = Except.ok ()) :
    handleCommand eng (WorkerCommand.tokenize text) =
      [WorkerMessage.tokenCount ts.length] ∧
    ∃ r, (analyze eng text).2 = Except.ok r ∧
      r.tokens.length = ts.length + 1 := by
  constructor
  · simp [handleCommand, count_tokens, hnever]
  · obtain ⟨r, hr, hlen⟩ :=
      analyze_ok_length eng text (bos :: ts) halways (by simp) hctx hdec
    exact ⟨r, hr, by simpa using hlen⟩

/-- An engine that prepends the BOS token 99 when tokenizing with
`AddBos.always` and yields `[1]` with `AddBos.never`. -/
def engBos : Engine :=
  { fexp := fun x => x
    tokenize := fun _ ab =>
      match ab with
      | AddBos.always => Except.ok [99, 1]
      | AddBos.never => Except.ok [1]
    newContext := fun _ _ => Except.ok ()
    decodeChunk := fun _ _ => Except.ok ()
    candidates := fun _ => [(1, 1)]
    tokenToStr := fun _ => some "t" }

/-- Witness for C10 on `engBos`: `Tokenize` reports 1 token while the
completed analysis holds 2 analyzed tokens. -/
theorem bos_count_mismatch_w :
    handleCommand engBos (WorkerCommand.tokenize "x") =
      [WorkerMessage.tokenCount 1] ∧
    ∃ r, (analyze engBos "x").2 = Except.ok r ∧ r.tokens.length = 2 :=
  bos_count_mismatch engBos "x" [1] 99 rfl rfl (fun _ _ => rfl) (fun _ _ => rfl)

end Perplex
